import Mathlib

/-!
Verification of the `rust-tc` threshold-cryptography library.

The library works over the scalar field `Fr` of BLS12-381 (a prime field of
255-bit prime order `r`) and the prime-order groups `G1`, `G2` generated by
`g1`, `g2`.  The development below treats the scalar field as an arbitrary
field `F` (with decidable equality, as `Fr` has); every identity proved holds
in particular for `Fr`, and concrete counterexamples are instantiated at
small prime fields `ZMod p`, where the arithmetic facts used (e.g. `1 ≠ 0`,
`2 ≠ 1`) also hold in `Fr` because `r` is a 255-bit prime.

Since `G1` and `G2` are cyclic of prime order `r`, a group element is uniquely
`s • gen` for a scalar `s`: we represent an element by that discrete logarithm
(`GElem.log`).  The source only uses the group operations add / identity /
scalar-mul / generator, all of which this representation models exactly, and
the pairing `e(a·g1, b·g2) = (a*b)·gT` is modelled by the product of the logs
(the discrete log of the `Gt` result).
-/

set_option linter.unusedSectionVars false

namespace RustTc

/-- An element of `G1` (or `G2`): `log` is its discrete logarithm with respect
to the group generator. -/
structure GElem (F : Type) where
  log : F

section Defs

variable {F : Type} [Field F] [DecidableEq F]

instance : Zero (GElem F) := ⟨⟨0⟩⟩

instance : Add (GElem F) := ⟨fun a b => ⟨a.log + b.log⟩⟩

instance : DecidableEq (GElem F) := fun a b =>
  decidable_of_iff (a.log = b.log) (by cases a; cases b; simp)

/-- The group generator (`G1Affine::generator()` / `G2Affine::generator()`). -/
def gen : GElem F := ⟨1⟩

/-- Scalar multiplication `s · g` (`g * s` on `G1Projective`/`G2Projective`). -/
def smulG (s : F) (g : GElem F) : GElem F := ⟨s * g.log⟩

/-- The pairing `e : G1 × G2 → Gt`, in discrete-log form:
`e(a·g1, b·g2) = (a*b)·gT`, so the log of the result is the product of
the logs. -/
def pairing (a b : GElem F) : F := a.log * b.log

@[simp] theorem zero_log : (0 : GElem F).log = 0 := rfl

@[simp] theorem add_log (a b : GElem F) : (a + b).log = a.log + b.log := rfl

@[simp] theorem gen_log : (gen : GElem F).log = 1 := rfl

@[simp] theorem smulG_log (s : F) (g : GElem F) : (smulG s g).log = s * g.log := rfl

theorem GElem.ext_log {a b : GElem F} (h : a.log = b.log) : a = b := by
  cases a; cases b; cases h; rfl

/-- `Poly` (src/poly.rs): the coefficients of a univariate polynomial over the
scalar field, lowest degree first. -/
structure Poly (F : Type) where
  coeff : List F

/-- The loop of `Poly::evaluate`: starting from the highest coefficient,
`result = result * x + c` over the remaining coefficients in reverse order. -/
def hornerLoop (x : F) : F → List F → F
  | acc, [] => acc
  | acc, c :: cs => hornerLoop x (acc * x + c) cs

/-- Case split of `Poly::evaluate` on the reversed coefficient list: the
empty coefficient vector evaluates to `0`, otherwise the Horner loop starts
from the last coefficient. -/
def evalCore (x : F) : List F → F
  | [] => 0
  | c :: cs => hornerLoop x c cs

/-- `Poly::evaluate` (src/poly.rs): Horner evaluation from the last
coefficient; the empty coefficient vector evaluates to `0`. -/
def Poly.evaluate (p : Poly F) (x : F) : F :=
  evalCore x p.coeff.reverse

instance : DecidableEq (Poly F) := fun a b =>
  decidable_of_iff (a.coeff = b.coeff) (by cases a; cases b; simp)

/-- `Commitment` (src/commitment.rs): the coefficients, as `G1` points. -/
structure Commitment (F : Type) where
  coeff : List (GElem F)

instance : DecidableEq (Commitment F) := fun a b =>
  decidable_of_iff (a.coeff = b.coeff) (by cases a; cases b; simp)

/-- `Poly::commitment` (src/poly.rs): map each coefficient `c` to `c · g1`. -/
def Poly.commitment (p : Poly F) : Commitment F :=
  ⟨p.coeff.map (fun c => smulG c gen)⟩

/-- The loop of `Commitment::evaluate`: `res = res * x; res += c` over the
coefficients in reverse order, in the group. -/
def hornerLoopG (x : F) : GElem F → List (GElem F) → GElem F
  | acc, [] => acc
  | acc, c :: cs => hornerLoopG x (smulG x acc + c) cs

/-- Case split of `Commitment::evaluate` on the reversed coefficient list:
the empty case returns the group GENERATOR (as the source does), otherwise
the Horner loop starts from the last coefficient. -/
def evalCoreG (x : F) : List (GElem F) → GElem F
  | [] => gen
  | c0 :: cs => hornerLoopG x c0 cs

/-- `Commitment::evaluate` (src/commitment.rs): Horner evaluation in `G1`.
NOTE: on an empty coefficient vector the source returns
`G1Projective::generator()` — the generator, not the identity. -/
def Commitment.evaluate (c : Commitment F) (x : F) : GElem F :=
  evalCoreG x c.coeff.reverse

/-- `Commitment::public_key` (src/commitment.rs): starts from `coeff[0]`
(a panic on an empty commitment, modelled as `none`) and then adds every
further coefficient: the result is the sum of all coefficients. -/
def Commitment.publicKey (c : Commitment F) : Option (GElem F) :=
  match c.coeff with
  | [] => none
  | c0 :: rest => some (rest.foldl (· + ·) c0)

/-- `PublicKeySet::public_key` (src/pk_set.rs): `commit.coeff[0]`
(a panic on an empty commitment, modelled as `none`). -/
def PublicKeySet.publicKey (c : Commitment F) : Option (GElem F) :=
  c.coeff.head?

end Defs

section Bridge

variable {F : Type} [Field F] [DecidableEq F]

/-- Abstract polynomial evaluation `c0 + x * (c1 + x * (...))`, used as the
mathematical reading of the Horner loops. -/
def listEval (x : F) : List F → F
  | [] => 0
  | c :: cs => c + x * listEval x cs

theorem listEval_append (x : F) (l : List F) (c : F) :
    listEval x (l ++ [c]) = listEval x l + c * x ^ l.length := by
  induction l with
  | nil => simp [listEval]
  | cons a l ih =>
      simp only [List.cons_append, listEval, List.length_cons]
      have h2 : listEval x (l.append [c]) = listEval x l + c * x ^ l.length := ih
      rw [h2]
      ring

theorem hornerLoop_eq (x : F) (acc : F) (l : List F) :
    hornerLoop x acc l = acc * x ^ l.length + listEval x l.reverse := by
  induction l generalizing acc with
  | nil => simp [hornerLoop, listEval]
  | cons c cs ih =>
      simp only [hornerLoop, ih, List.reverse_cons, List.length_cons,
        listEval_append, List.length_reverse]
      ring

theorem Poly.evaluate_eq_listEval (p : Poly F) (x : F) :
    p.evaluate x = listEval x p.coeff := by
  unfold Poly.evaluate
  rcases h : p.coeff.reverse with _ | ⟨c, cs⟩
  · have : p.coeff = [] := by
      simpa using congrArg List.reverse h
    simp [this, evalCore, listEval]
  · have hc : p.coeff = cs.reverse ++ [c] := by
      have := congrArg List.reverse h
      simpa using this
    rw [show evalCore x (c :: cs) = hornerLoop x c cs from rfl, hornerLoop_eq, hc,
      listEval_append]
    simp [List.length_reverse]
    ring

theorem hornerLoopG_log (x : F) (acc : GElem F) (l : List (GElem F)) :
    (hornerLoopG x acc l).log = hornerLoop x acc.log (l.map GElem.log) := by
  induction l generalizing acc with
  | nil => rfl
  | cons c cs ih =>
      simp only [hornerLoopG, hornerLoop, List.map_cons, ih]
      have h2 : x * acc.log + c.log = acc.log * x + c.log := by ring
      rw [add_log, smulG_log, h2]

theorem Commitment.evaluate_log (l : List (GElem F)) (h : l ≠ []) (x : F) :
    (Commitment.evaluate ⟨l⟩ x).log = Poly.evaluate ⟨l.map GElem.log⟩ x := by
  unfold Commitment.evaluate Poly.evaluate
  rcases hrev : l.reverse with _ | ⟨c, cs⟩
  · exact absurd (by simpa using congrArg List.reverse hrev) h
  · have hmap : (l.map GElem.log).reverse = c.log :: cs.map GElem.log := by
      rw [← List.map_reverse, hrev, List.map_cons]
    rw [hmap]
    exact hornerLoopG_log x c cs

theorem smulG_gen_map_hornerLoopG (x : F) (a : F) (cs : List F) :
    hornerLoopG x (smulG a gen) (cs.map (fun c => smulG c gen)) =
      smulG (hornerLoop x a cs) gen := by
  induction cs generalizing a with
  | nil => rfl
  | cons c cs ih =>
      simp only [List.map_cons, hornerLoopG, hornerLoop]
      rw [← ih]
      congr 1
      apply GElem.ext_log
      simp
      ring

theorem listEval_one (l : List F) : listEval 1 l = l.sum := by
  induction l with
  | nil => rfl
  | cons c cs ih => simp [listEval, ih]

theorem foldl_add_log (rest : List (GElem F)) (a : GElem F) :
    (rest.foldl (· + ·) a).log = a.log + (rest.map GElem.log).sum := by
  induction rest generalizing a with
  | nil => simp
  | cons b bs ih =>
      simp only [List.foldl_cons, List.map_cons, List.sum_cons, ih, add_log]
      ring

end Bridge

section ThresholdDefs

variable {F : Type} [Field F] [DecidableEq F]

/-- `into_scalar_plus_1` (src/util.rs): share index `i` maps to scalar `1 + i`. -/
def intoScalarPlus1 (x : F) : F := 1 + x

/-- Net effect of the two `x_prod` loops of `combine_signatures_` /
`decrypt_` (src/pk_set.rs): the first loop stores the prefix products
`x_0 ⋯ x_{k-1}`, the reverse sweep multiplies entry `k` by the suffix
product `x_{k+1} ⋯ x_t`, so `x_prod[k]` is the product of all entries
except the `k`-th. -/
def xprodAt (xs : List F) (k : ℕ) : F := (xs.take k).prod * (xs.drop (k + 1)).prod

/-- The `denom` loop of `combine_signatures_` / `decrypt_` (src/pk_set.rs):
the product of `x0 - x_k` over all sample abscissae `x0` with `x0 ≠ x_k`
(note: entries EQUAL to `x_k` are filtered out, including duplicates). -/
def denomAt (xs : List F) (k : ℕ) : F :=
  ((xs.filter (fun x0 => x0 ≠ xs.getD k 0)).map (fun x0 => x0 - xs.getD k 0)).prod

/-- The Lagrange-at-zero coefficient `l0` computed for sample `k`:
`x_prod[k] * denom⁻¹` (`denom.invert().unwrap()`; `denom` is a product of
nonzero factors, so the unwrap cannot fire). -/
def lagrangeAt0 (xs : List F) (k : ℕ) : F := xprodAt xs k * (denomAt xs k)⁻¹

/-- `combine_signatures_` and `decrypt_` (src/pk_set.rs), which are the same
function in `G2` resp. `G1`: take up to `t + 1` samples, map each index `i`
through `into_scalar_plus_1`, fail (`bail!("not enough shares")`) if fewer
than `t + 1` remain, return the first sample when `t = 0`, and otherwise
accumulate `Σ_k l0_k · sample_k`. -/
def combineShares (t : ℕ) (items : List (F × GElem F)) : Option (GElem F) :=
  let samples := (items.take (t + 1)).map (fun p => (intoScalarPlus1 p.1, p.2))
  if samples.length ≤ t then none
  else if t = 0 then some (samples.headD (0, 0)).2
  else
    let xs := samples.map Prod.fst
    some ((List.range samples.length).foldl
      (fun acc k => acc + smulG (lagrangeAt0 xs k) (samples.getD k (0, 0)).2) 0)

/-- `SecretKeySet::secret_key_share` (src/sk_set.rs): evaluate the secret
polynomial at `i + 1`. -/
def SecretKeySet.secretKeyShare (p : Poly F) (i : F) : F :=
  p.evaluate (intoScalarPlus1 i)

/-- `SecretKey::sign` (src/sk.rs): `sk · H₂(msg)`; the message hash
`H₂(msg) ∈ G2` is passed as an abstract group element. -/
def SecretKey.sign (sk : F) (hm : GElem F) : GElem F := smulG sk hm

/-- `PublicKey::verify` (src/pk.rs): `e(g1, σ) == e(pk, H₂(msg))`, with the
message hash passed as an abstract group element. -/
def PublicKey.verify (pk : GElem F) (sig : GElem F) (hm : GElem F) : Bool :=
  pairing gen sig = pairing pk hm

end ThresholdDefs

section CoeffPos

/-- The value of `usize::MAX` on the 64-bit platform the crate targets. -/
def usizeMax : ℕ := 2 ^ 64 - 1

/-- `usize::checked_add`: `none` models arithmetic overflow. -/
def checkedAdd (a b : ℕ) : Option ℕ :=
  if a + b ≤ usizeMax then some (a + b) else none

/-- `usize::checked_mul`: `none` models arithmetic overflow. -/
def checkedMul (a b : ℕ) : Option ℕ :=
  if a * b ≤ usizeMax then some (a * b) else none

/-- `coeff_pos` (src/util.rs and src/poly.rs, identical): order the pair so
that `j ≥ i`, then compute `i.checked_add(j.checked_mul(j.checked_add(1)?)? / 2)`.
Note the product `j * (j + 1)` is checked BEFORE the division by two. -/
def coeffPosChecked (i j : ℕ) : Option ℕ :=
  if j ≥ i then
    (checkedAdd j 1).bind (fun j1 => (checkedMul j j1).bind (fun p => checkedAdd i (p / 2)))
  else
    (checkedAdd i 1).bind (fun i1 => (checkedMul i i1).bind (fun p => checkedAdd j (p / 2)))

/-- The triangular index used by the bivariate types, as unbounded arithmetic:
for any polynomial that fits in memory the `usize` computation in
`coeff_pos(i, j).expect(..)` cannot overflow, and it equals this value
(`coeffPosChecked` models the overflow behaviour itself, for C9). -/
def coeffPos (i j : ℕ) : ℕ :=
  if j ≥ i then i + j * (j + 1) / 2 else j + i * (i + 1) / 2

end CoeffPos

section BivarDefs

variable {F : Type} [Field F] [DecidableEq F]

/-- `BivarPoly` (src/bipoly.rs): degree and triangularly packed coefficients. -/
structure BivarPoly (F : Type) where
  degree : ℕ
  coeff : List F

/-- `BivarCommitment` (src/bicommitment.rs): degree and triangularly packed
coefficient commitments. -/
structure BivarCommitment (F : Type) where
  degree : ℕ
  coeff : List (GElem F)

/-- `BivarPoly::row` (src/bipoly.rs): row coefficient `i` is
`Σ_{j=0..degree} coeff[coeff_pos(i, j)] * x^j` (`x_pow[j] = x^j` from
`powers`); out-of-range indexing (impossible for well-formed values) is
modelled by `getD` with default `0`. -/
def BivarPoly.row (f : BivarPoly F) (x : F) : Poly F :=
  ⟨(List.range (f.degree + 1)).map (fun i =>
      ((List.range (f.degree + 1)).map
        (fun j => f.coeff.getD (coeffPos i j) 0 * x ^ j)).sum)⟩

/-- `BivarPoly::commitment` (src/bipoly.rs): map each coefficient to `c · g1`. -/
def BivarPoly.commitment (f : BivarPoly F) : BivarCommitment F :=
  ⟨f.degree, f.coeff.map (fun c => smulG c gen)⟩

/-- `BivarCommitment::row` (src/bicommitment.rs): row coefficient `i` is
`Σ_{j=0..degree} x^j · coeff[coeff_pos(i, j)]` in `G1`. -/
def BivarCommitment.row (c : BivarCommitment F) (x : F) : Commitment F :=
  ⟨(List.range (c.degree + 1)).map (fun i =>
      ((List.range (c.degree + 1)).map
        (fun j => smulG (x ^ j) (c.coeff.getD (coeffPos i j) 0))).sum)⟩

end BivarDefs

section EncryptionDefs

variable {F : Type} [Field F] [DecidableEq F]

/-- `Ciphertext` (src/ciphertext.rs): `(U ∈ G1, V ∈ bytes, W ∈ G2)`; bytes
are modelled as naturals (`u8` values — the XOR identities below hold for
all naturals). -/
structure Ciphertext (F : Type) where
  u : GElem F
  v : List ℕ
  w : GElem F

/-- The byte-stream XOR of `xor_with_hash` (src/util.rs): XOR the RNG stream
(an abstract function of the position) into the bytes, position by position;
output length equals input length. -/
def xorFrom (s : ℕ → ℕ) : ℕ → List ℕ → List ℕ
  | _, [] => []
  | i, b :: bs => (s i ^^^ b) :: xorFrom s (i + 1) bs

/-- `xor_with_hash(g, bytes)` (src/util.rs): the ChaCha20 stream seeded from
`sha3_256(compressed(g))` is abstracted as `stream g : ℕ → ℕ`. -/
def xorWithHash (stream : GElem F → ℕ → ℕ) (g : GElem F) (bytes : List ℕ) : List ℕ :=
  xorFrom (stream g) 0 bytes

/-- `PublicKey::encrypt_with_rng` (src/pk.rs): `U = r·g1`,
`V = msg XOR stream(r·pk)`, `W = r·H₁₂(U, V)`; the hash `hash_g1_g2`
(src/util.rs) is abstracted as a function parameter. -/
def PublicKey.encryptWithRng (hashG1G2 : GElem F → List ℕ → GElem F)
    (stream : GElem F → ℕ → ℕ) (pk : GElem F) (r : F) (msg : List ℕ) : Ciphertext F :=
  let u := smulG r gen
  let v := xorWithHash stream (smulG r pk) msg
  let w := smulG r (hashG1G2 u v)
  ⟨u, v, w⟩

/-- `Ciphertext::verify` (src/ciphertext.rs):
`e(g1, W) == e(U, H₁₂(U, V))`. -/
def Ciphertext.verify (hashG1G2 : GElem F → List ℕ → GElem F) (ct : Ciphertext F) : Bool :=
  pairing gen ct.w = pairing ct.u (hashG1G2 ct.u ct.v)

/-- `SecretKey::decrypt` (src/sk.rs): `none` if the ciphertext fails
verification, otherwise `V XOR stream(sk · U)`. -/
def SecretKey.decrypt (hashG1G2 : GElem F → List ℕ → GElem F)
    (stream : GElem F → ℕ → ℕ) (sk : F) (ct : Ciphertext F) : Option (List ℕ) :=
  if Ciphertext.verify hashG1G2 ct then
    some (xorWithHash stream (smulG sk ct.u) ct.v)
  else none

end EncryptionDefs

section InterpolationDefs

variable {F : Type} [Field F] [DecidableEq F]

/-- `Poly::remove_zeros` (src/poly.rs): drop trailing zero coefficients. -/
def removeZeros (l : List F) : List F :=
  (l.reverse.dropWhile (fun c => c = 0)).reverse

/-- The pointwise loop of `AddAssign for Poly` (src/poly.rs): resize the
shorter list with zeros, then add componentwise. -/
def addLists : List F → List F → List F
  | [], bs => bs
  | as, [] => as
  | a :: as, b :: bs => (a + b) :: addLists as bs

/-- `Poly += &Poly` (src/poly.rs): componentwise addition followed by
`remove_zeros`. -/
def polyAdd (a b : List F) : List F := removeZeros (addLists a b)

/-- `Poly::is_zero` (src/poly.rs): all coefficients are zero. -/
def polyIsZero (l : List F) : Bool := l.all (fun c => c = 0)

/-- `Poly *= Scalar` (src/poly.rs): multiplication by the scalar `0` clears
the coefficient vector (zeroize + clear), otherwise multiply each
coefficient. -/
def polyMulScalar (l : List F) (s : F) : List F :=
  if s = 0 then [] else l.map (· * s)

/-- `Mul<&Poly> for &Poly` (src/poly.rs): the zero polynomial absorbs,
otherwise the convolution of the coefficient vectors
(`coeffs[i + j] += a_i * b_j`). -/
def polyMul (a b : List F) : List F :=
  if polyIsZero a || polyIsZero b then []
  else
    (List.range (a.length + b.length - 1)).map (fun k =>
      ((List.range a.length).map
        (fun i => if i ≤ k then a.getD i 0 * b.getD (k - i) 0 else 0)).sum)

/-- `Poly::evaluate` on a raw coefficient list. -/
def polyEval (l : List F) (x : F) : F := Poly.evaluate ⟨l⟩ x

/-- The loop of `Poly::compute_interpolation` (src/poly.rs).  Each step
computes `diff = (y - poly(x)) / base(x)` — where `base(x).invert().unwrap()`
PANICS when `base(x) = 0`, modelled as `none` — then `base *= diff`,
`poly += base`, `base *= (X - x)`. -/
def interpGo : List (F × F) → List F → List F → Option (List F)
  | [], poly, _ => some poly
  | (x, y) :: tl, poly, base =>
      let baseVal := polyEval base x
      if baseVal = 0 then none
      else
        let diff := (y - polyEval poly x) * baseVal⁻¹
        let base2 := polyMulScalar base diff
        let poly2 := polyAdd poly base2
        let base3 := polyMul base2 [-x, 1]
        interpGo tl poly2 base3

/-- `Poly::compute_interpolation` (src/poly.rs): the zero polynomial on no
samples, otherwise start from `poly = constant y₀`, `base = X - x₀` and run
the loop.  `Poly::interpolate` converts its samples and calls this. -/
def computeInterpolation (samples : List (F × F)) : Option (Poly F) :=
  match samples with
  | [] => some ⟨[]⟩
  | (x0, y0) :: rest => (interpGo rest [y0] [-x0, 1]).map (fun l => (⟨l⟩ : Poly F))

theorem interpGo_base_empty (x y : F) (tl : List (F × F)) (poly : List F) :
    interpGo ((x, y) :: tl) poly [] = none := by
  simp only [interpGo]
  rw [if_pos]
  rfl

theorem interpGo_fit (x y : F) (tl : List (F × F)) (poly base : List F)
    (hfit : polyEval poly x = y) (hbase : polyEval base x ≠ 0) :
    interpGo ((x, y) :: tl) poly base =
      interpGo tl (polyAdd poly []) (polyMul [] [-x, 1]) := by
  simp only [interpGo]
  rw [if_neg hbase]
  have hd : (y - polyEval poly x) * (polyEval base x)⁻¹ = 0 := by
    rw [hfit]
    simp
  rw [hd]
  have hms : polyMulScalar base (0 : F) = [] := by simp [polyMulScalar]
  rw [hms]

end InterpolationDefs

section CombineLemmas

variable {F : Type} [Field F] [DecidableEq F]

/-- Combining the two identical shares `(i, s)` at threshold `t = 1`: all
equal abscissae are filtered out of the denominators, each denominator is the
empty product `1`, and the result is `(2 * (1 + i)) · s` — a signature, not
an error. -/
theorem combineShares_pair_dup (i : F) (s : GElem F) :
    combineShares 1 [(i, s), (i, s)] = some (smulG (2 * (1 + i)) s) := by
  simp only [combineShares, intoScalarPlus1, List.take, List.map_cons, List.map_nil,
    List.length_cons, List.length_nil]
  norm_num
  rw [show List.range 2 = [0, 1] from rfl]
  simp only [List.foldl_cons, List.foldl_nil]
  simp [lagrangeAt0, xprodAt, denomAt]
  apply GElem.ext_log
  simp
  ring

end CombineLemmas

instance : Fact (Nat.Prime 11) := ⟨by norm_num⟩

section CoeffPosLemmas

theorem usizeMax_pos : 1 ≤ usizeMax := by norm_num [usizeMax]

/-- The inner checked chain of `coeff_pos` for an ordered pair `i ≤ j`:
it succeeds exactly when both the intermediate product `j * (j + 1)` and the
final sum fit in `usize`. -/
theorem coeffPosChecked_ordered (i j : ℕ) (hij : i ≤ j) (hj : j ≤ usizeMax) :
    (checkedAdd j 1).bind (fun j1 => (checkedMul j j1).bind
        (fun p => checkedAdd i (p / 2))) =
      if j * (j + 1) ≤ usizeMax ∧ i + j * (j + 1) / 2 ≤ usizeMax
      then some (i + j * (j + 1) / 2) else none := by
  by_cases h1 : j + 1 ≤ usizeMax
  · rw [show checkedAdd j 1 = some (j + 1) from by simp [checkedAdd, h1]]
    simp only [Option.some_bind]
    by_cases h2 : j * (j + 1) ≤ usizeMax
    · rw [show checkedMul j (j + 1) = some (j * (j + 1)) from by simp [checkedMul, h2]]
      simp only [Option.some_bind]
      by_cases h3 : i + j * (j + 1) / 2 ≤ usizeMax
      · rw [show checkedAdd i (j * (j + 1) / 2) = some (i + j * (j + 1) / 2) from by
          simp [checkedAdd, h3]]
        rw [if_pos ⟨h2, h3⟩]
      · rw [show checkedAdd i (j * (j + 1) / 2) = none from by simp [checkedAdd, h3]]
        rw [if_neg (by tauto)]
    · rw [show checkedMul j (j + 1) = none from by simp [checkedMul, h2]]
      simp only [Option.none_bind]
      rw [if_neg (by tauto)]
  · have hgt : ¬ (j * (j + 1) ≤ usizeMax) := by
      have hj1 : 1 ≤ j := by
        have := usizeMax_pos
        omega
      have : j + 1 ≤ j * (j + 1) := by
        calc j + 1 = 1 * (j + 1) := by ring
        _ ≤ j * (j + 1) := Nat.mul_le_mul_right _ hj1
      omega
    rw [show checkedAdd j 1 = none from by simp [checkedAdd, h1]]
    simp only [Option.none_bind]
    rw [if_neg (by tauto)]

end CoeffPosLemmas

section Claims

variable {F : Type} [Field F] [DecidableEq F]

/-- Claim C2, amended: for every `Poly p` with a nonempty coefficient vector
and every scalar `x`, `p.commitment().evaluate(x) == p.evaluate(x) · g1`.
The case of the zero polynomial (empty coefficient vector) excluded here
genuinely fails, see the counterexample. -/
theorem poly_commitment_evaluate_hom (p : Poly F) (h : p.coeff ≠ []) (x : F) :
    p.commitment.evaluate x = smulG (p.evaluate x) gen := by
  rcases hrev : p.coeff.reverse with _ | ⟨c, cs⟩
  · exact absurd (by simpa using congrArg List.reverse hrev) h
  · unfold Poly.commitment Commitment.evaluate Poly.evaluate
    have hmap : (p.coeff.map (fun c => smulG c gen)).reverse
        = smulG c gen :: cs.map (fun c => smulG c gen) := by
      rw [← List.map_reverse, hrev, List.map_cons]
    rw [hmap, hrev]
    exact smulG_gen_map_hornerLoopG x c cs

/-- Claim C2, witness of the amended theorem at `p = 3 + 5x`, `x = 2` over
`ZMod 11`. -/
theorem poly_commitment_evaluate_hom_witness :
    (Poly.commitment (F := ZMod 11) ⟨[3, 5]⟩).evaluate 2 =
      smulG ((⟨[3, 5]⟩ : Poly (ZMod 11)).evaluate 2) gen :=
  poly_commitment_evaluate_hom ⟨[3, 5]⟩ (by decide) 2

/-- Claim C2, counterexample: for the zero polynomial (empty coefficient
vector) the commitment evaluates to the generator, while
`p.evaluate(x) · g1 = 0 · g1` is the identity. -/
theorem poly_commitment_evaluate_zero_cex :
    (Poly.commitment (F := ZMod 11) ⟨[]⟩).evaluate 0 ≠
      smulG ((⟨[]⟩ : Poly (ZMod 11)).evaluate 0) gen := by decide

/-- Claim C10: evaluating a `Commitment` whose coefficient vector is empty
(such as the commitment of the zero polynomial) returns the generator `g1`,
which is not the identity element. -/
theorem commitment_evaluate_empty_is_generator (x : F) :
    Commitment.evaluate (⟨[]⟩ : Commitment F) x = gen ∧
      (Poly.commitment (⟨[]⟩ : Poly F)).coeff = [] ∧
      (gen : GElem F) ≠ 0 :=
  ⟨rfl, rfl, fun hc => one_ne_zero (congrArg GElem.log hc)⟩

/-- Claim C5, amended: `Commitment::public_key` does NOT return the zeroth
coefficient: it returns the sum `C₀ + ⋯ + C_d` of all coefficients, i.e. the
commitment evaluated at the scalar `1` (it panics on an empty commitment,
modelled as `none`). -/
theorem commitment_public_key_eq_evaluate_one (c : Commitment F) (h : c.coeff ≠ []) :
    c.publicKey = some (c.evaluate 1) := by
  obtain ⟨l⟩ := c
  rcases hl : l with _ | ⟨c0, rest⟩
  · subst hl
    exact absurd rfl h
  · subst hl
    show some (rest.foldl (· + ·) c0) = _
    congr 1
    apply GElem.ext_log
    rw [foldl_add_log, Commitment.evaluate_log _ (by simp) 1,
      Poly.evaluate_eq_listEval, listEval_one]
    simp

/-- Claim C5, witness of the amended theorem at the commitment `[3·g1, 5·g1]`
over `ZMod 11`. -/
theorem commitment_public_key_eq_evaluate_one_witness :
    Commitment.publicKey (⟨[⟨3⟩, ⟨5⟩]⟩ : Commitment (ZMod 11)) =
      some (Commitment.evaluate ⟨[⟨3⟩, ⟨5⟩]⟩ 1) :=
  commitment_public_key_eq_evaluate_one _ (by decide)

/-- Claim C5, counterexample: on the commitment with coefficients
`(3·g1, 5·g1)`, `public_key` returns `8·g1`, not the zeroth coefficient
`3·g1`. -/
theorem commitment_public_key_not_c0_cex :
    Commitment.publicKey (⟨[⟨3⟩, ⟨5⟩]⟩ : Commitment (ZMod 11)) ≠ some ⟨3⟩ ∧
      Commitment.publicKey (⟨[⟨3⟩, ⟨5⟩]⟩ : Commitment (ZMod 11)) = some ⟨8⟩ := by decide

/-- Claim C7, amended: on two shares with the same index `i` at threshold
`t = 1`, `combine_signatures_` does not fail at all: the equal abscissae are
filtered out of every Lagrange denominator, so it returns the (wrong)
signature `(2 * (1 + i)) · σ` instead of a `DuplicateShare` error. -/
theorem combine_signatures_duplicate_no_error (i : F) (s : GElem F) :
    combineShares 1 [(i, s), (i, s)] = some (smulG (2 * (1 + i)) s) :=
  combineShares_pair_dup i s

/-- Claim C7, counterexample: duplicated share `(0, g2)` at threshold `1` —
the combine returns a signature (is not an error). -/
theorem combine_signatures_duplicate_cex :
    combineShares (F := ZMod 11) 1 [(0, gen), (0, gen)] ≠ none := by
  rw [combineShares_pair_dup]
  exact Option.some_ne_none _

/-- Claim C8: `compute_interpolation` on two samples sharing the
x-coordinate `1` hits `base.evaluate(x).invert().unwrap()` on zero and
PANICS (modelled as `none`); no `InterpolationInvalid` error value exists
anywhere in the crate. -/
theorem interpolate_duplicate_x_panics :
    computeInterpolation (F := ZMod 11) [(1, 2), (1, 3)] = none := by decide

/-- Claim C6: `compute_interpolation` PANICS on the distinct-x samples
`(0,5), (1,5), (2,7)`: after the second sample `diff = 0` multiplies `base`
down to the zero polynomial, so at the third sample `base.evaluate(2) = 0`
and `invert().unwrap()` panics (modelled as `none`) instead of returning the
fitting polynomial `x² - x + 5`. -/
theorem interpolate_distinct_x_panics :
    computeInterpolation (F := ZMod 11) [(0, 5), (1, 5), (2, 7)] = none := by
  have h0 : computeInterpolation (F := ZMod 11) [(0, 5), (1, 5), (2, 7)] =
      (interpGo [(1, 5), (2, 7)] [5] [-0, 1]).map
        (fun l => (⟨l⟩ : Poly (ZMod 11))) := rfl
  rw [h0, interpGo_fit 1 5 [(2, 7)] [5] [-0, 1] (by decide) (by decide)]
  have h1 : polyAdd (F := ZMod 11) [5] [] = [5] := by decide
  have h2 : polyMul (F := ZMod 11) [] [-1, 1] = [] := by decide
  rw [h1, h2, interpGo_base_empty]
  rfl

/-- Claim C9, amended: for `i, j : usize`, `coeff_pos(i, j)` returns
`min(i,j) + max(i,j)·(max(i,j)+1)/2` exactly when both the INTERMEDIATE
product `max·(max+1)` (computed before the halving) and the final sum fit in
`usize`; when the intermediate product overflows it returns `None` even if
the mathematical value itself is representable (see the counterexample). -/
theorem coeffPosChecked_spec (i j : ℕ) (hi : i ≤ usizeMax) (hj : j ≤ usizeMax) :
    coeffPosChecked i j =
      if max i j * (max i j + 1) ≤ usizeMax ∧
          min i j + max i j * (max i j + 1) / 2 ≤ usizeMax
      then some (min i j + max i j * (max i j + 1) / 2) else none := by
  unfold coeffPosChecked
  by_cases hord : j ≥ i
  · rw [if_pos hord, coeffPosChecked_ordered i j hord hj,
      max_eq_right hord, min_eq_left hord]
  · have hord2 : j ≤ i := by omega
    rw [if_neg hord, coeffPosChecked_ordered j i hord2 hi,
      max_eq_left hord2, min_eq_right hord2]

/-- Claim C9, witness of the amended theorem at `(i, j) = (3, 5)`. -/
theorem coeffPosChecked_spec_witness :
    coeffPosChecked 3 5 =
      if max 3 5 * (max 3 5 + 1) ≤ usizeMax ∧
          min 3 5 + max 3 5 * (max 3 5 + 1) / 2 ≤ usizeMax
      then some (min 3 5 + max 3 5 * (max 3 5 + 1) / 2) else none :=
  coeffPosChecked_spec 3 5 (by decide) (by decide)

/-- Claim C9, counterexample: at `(i, j) = (0, 2³²)` the mathematical value
`min + max·(max+1)/2 = 2⁶³ + 2³¹` is representable in a 64-bit `usize`, yet
`coeff_pos` returns `None` because the intermediate product `2³²·(2³²+1)`
overflows. -/
theorem coeff_pos_representable_none_cex :
    (min 0 (2 ^ 32) + max 0 (2 ^ 32) * (max 0 (2 ^ 32) + 1) / 2 ≤ usizeMax) ∧
      coeffPosChecked 0 (2 ^ 32) = none := by decide

end Claims

section EncryptionLemmas

variable {F : Type} [Field F] [DecidableEq F]

theorem xorFrom_xorFrom (s : ℕ → ℕ) (i : ℕ) (bytes : List ℕ) :
    xorFrom s i (xorFrom s i bytes) = bytes := by
  induction bytes generalizing i with
  | nil => rfl
  | cons b bs ih =>
      simp only [xorFrom, ih]
      congr 1
      rw [← Nat.xor_assoc, Nat.xor_self, Nat.zero_xor]

end EncryptionLemmas

section ClaimsEnc

variable {F : Type} [Field F] [DecidableEq F]

/-- Claim C4: for every secret key `sk` with `pk = sk · g1`, every message,
every encryption randomness `r`, and every instantiation of the hash
`H₁₂` and of the XOR key-stream, the ciphertext produced by
`encrypt_with_rng` passes `Ciphertext::verify` and decrypts back to the
message under `sk`. -/
theorem encrypt_verify_decrypt_roundtrip (h12 : GElem F → List ℕ → GElem F)
    (stream : GElem F → ℕ → ℕ) (sk r : F) (m : List ℕ) :
    Ciphertext.verify h12 (PublicKey.encryptWithRng h12 stream (smulG sk gen) r m) = true ∧
      SecretKey.decrypt h12 stream sk
        (PublicKey.encryptWithRng h12 stream (smulG sk gen) r m) = some m := by
  have hver : Ciphertext.verify h12
      (PublicKey.encryptWithRng h12 stream (smulG sk gen) r m) = true := by
    simp only [Ciphertext.verify, PublicKey.encryptWithRng, pairing, smulG_log, gen_log,
      decide_eq_true_eq]
    ring
  refine ⟨hver, ?_⟩
  rw [SecretKey.decrypt, if_pos hver]
  have hsw : smulG sk (PublicKey.encryptWithRng h12 stream (smulG sk gen) r m).u
      = smulG r (smulG sk gen) := by
    apply GElem.ext_log
    simp [PublicKey.encryptWithRng]
    ring
  rw [hsw]
  show some (xorWithHash stream _ (xorWithHash stream _ m)) = some m
  rw [xorWithHash, xorWithHash, xorFrom_xorFrom]

end ClaimsEnc

section BivarLemmas

variable {F : Type} [Field F] [DecidableEq F]

theorem listSum_log (l : List (GElem F)) : l.sum.log = (l.map GElem.log).sum := by
  induction l with
  | nil => rfl
  | cons a as ih =>
      show (a + as.sum).log = a.log + (as.map GElem.log).sum
      rw [add_log, ih]

theorem sum_map_range_F (n : ℕ) (g : ℕ → F) :
    ((List.range n).map g).sum = ∑ k ∈ Finset.range n, g k := by
  induction n with
  | zero => rfl
  | succ n ih =>
      rw [List.range_succ, List.map_append, List.sum_append, Finset.sum_range_succ, ih]
      simp

theorem getD_map_toG_log (l : List F) (idx : ℕ) :
    ((l.map (fun c => smulG c gen)).getD idx 0).log = l.getD idx 0 := by
  induction l generalizing idx with
  | nil => simp [List.getD]
  | cons c cs ih =>
      cases idx with
      | zero => simp [List.getD]
      | succ idx =>
          simp only [List.map_cons, List.getD_cons_succ]
          exact ih idx

theorem bivar_row_entry (l : List F) (d : ℕ) (x : F) (i : ℕ) :
    smulG (((List.range (d + 1)).map
        (fun j => l.getD (coeffPos i j) 0 * x ^ j)).sum) gen =
      ((List.range (d + 1)).map
        (fun j => smulG (x ^ j)
          ((l.map (fun c => smulG c gen)).getD (coeffPos i j) 0))).sum := by
  apply GElem.ext_log
  rw [smulG_log, gen_log, listSum_log, List.map_map]
  simp only [Function.comp_def, smulG_log]
  rw [sum_map_range_F, sum_map_range_F, mul_one]
  refine Finset.sum_congr rfl (fun k _ => ?_)
  rw [getD_map_toG_log]
  ring

/-- Claim C3: for every `BivarPoly f` and scalar `m`, the commitment of the
extracted row equals the row of the commitment:
`f.row(m).commitment() == f.commitment().row(m)`. -/
theorem bivar_row_commitment_comm (f : BivarPoly F) (x : F) :
    (f.row x).commitment = f.commitment.row x := by
  unfold BivarPoly.row Poly.commitment BivarPoly.commitment BivarCommitment.row
  congr 1
  rw [List.map_map]
  refine List.map_congr_left (fun i _ => ?_)
  exact bivar_row_entry f.coeff f.degree x i

end BivarLemmas

section LagrangeBridge

variable {F : Type} [Field F] [DecidableEq F]

theorem listEval_eq_sum (l : List F) (x : F) :
    listEval x l = ∑ k ∈ Finset.range l.length, l.getD k 0 * x ^ k := by
  induction l with
  | nil => simp [listEval]
  | cons c cs ih =>
      rw [listEval, ih, List.length_cons, Finset.sum_range_succ']
      simp only [List.getD_cons_succ, List.getD_cons_zero, pow_zero, mul_one, pow_succ]
      rw [Finset.mul_sum]
      rw [add_comm]
      congr 1
      refine Finset.sum_congr rfl (fun k _ => ?_)
      ring

theorem prod_take_eq (xs : List F) (k : ℕ) (hk : k ≤ xs.length) :
    (xs.take k).prod = ∏ j ∈ Finset.range k, xs.getD j 0 := by
  induction k with
  | zero => simp
  | succ k ih =>
      have hk2 : k < xs.length := by omega
      rw [Finset.prod_range_succ, ← ih (by omega), List.prod_take_succ xs k hk2,
        List.getD_eq_getElem xs 0 hk2]

theorem prod_drop_eq (xs : List F) (m : ℕ) :
    (xs.drop m).prod = ∏ j ∈ Finset.range (xs.length - m), xs.getD (m + j) 0 := by
  induction xs generalizing m with
  | nil => simp
  | cons a l ih =>
      cases m with
      | zero =>
          simp only [List.drop_zero, List.length_cons, Nat.sub_zero, List.prod_cons]
          rw [Finset.prod_range_succ']
          simp only [Nat.zero_add, List.getD_cons_succ, List.getD_cons_zero]
          rw [mul_comm]
          congr 1
          have := ih 0
          simpa using this
      | succ m =>
          simp only [List.drop_succ_cons, List.length_cons]
          rw [ih m, Nat.succ_sub_succ]
          refine Finset.prod_congr rfl (fun j _ => ?_)
          rw [show m + 1 + j = (m + j) + 1 by ring, List.getD_cons_succ]

theorem prod_erase_range (n k : ℕ) (hk : k < n) (g : ℕ → F) :
    ∏ j ∈ (Finset.range n).erase k, g j =
      (∏ j ∈ Finset.range k, g j) * ∏ j ∈ Finset.range (n - (k + 1)), g (k + 1 + j) := by
  have hset : (Finset.range n).erase k = Finset.range k ∪ Finset.Ico (k + 1) n := by
    ext j
    simp only [Finset.mem_erase, Finset.mem_range, Finset.mem_union, Finset.mem_Ico]
    omega
  have hdis : Disjoint (Finset.range k) (Finset.Ico (k + 1) n) := by
    rw [Finset.disjoint_left]
    intro a ha hb
    simp only [Finset.mem_range] at ha
    simp only [Finset.mem_Ico] at hb
    omega
  rw [hset, Finset.prod_union hdis, Finset.prod_Ico_eq_prod_range]

theorem prod_map_eq (xs : List F) (h : F → F) :
    (xs.map h).prod = ∏ j ∈ Finset.range xs.length, h (xs.getD j 0) := by
  induction xs with
  | nil => simp
  | cons a l ih =>
      simp only [List.map_cons, List.prod_cons, List.length_cons]
      rw [Finset.prod_range_succ']
      simp only [List.getD_cons_succ, List.getD_cons_zero]
      rw [← ih, mul_comm]

theorem filter_map_prod (xs : List F) (p : F → Bool) (g : F → F) :
    ((xs.filter p).map g).prod = (xs.map (fun x => if p x then g x else 1)).prod := by
  induction xs with
  | nil => rfl
  | cons a l ih =>
      by_cases hp : p a
      · rw [List.filter_cons_of_pos hp]
        simp only [List.map_cons, List.prod_cons, if_pos hp, ih]
      · rw [List.filter_cons_of_neg hp]
        simp only [List.map_cons, List.prod_cons, if_neg hp, ih, one_mul]

theorem nodup_getD_inj (xs : List F) (hnd : xs.Nodup) {j k : ℕ}
    (hj : j < xs.length) (hk : k < xs.length) :
    xs.getD j 0 = xs.getD k 0 ↔ j = k := by
  rw [List.getD_eq_getElem xs 0 hj, List.getD_eq_getElem xs 0 hk]
  constructor
  · intro hjk
    have hinj := List.nodup_iff_injective_get.mp hnd
    have : xs.get ⟨j, hj⟩ = xs.get ⟨k, hk⟩ := by
      simpa [List.get_eq_getElem] using hjk
    have := hinj this
    simpa using congrArg Fin.val this
  · rintro rfl
    rfl

theorem xprodAt_eq (xs : List F) (k : ℕ) (hk : k < xs.length) :
    xprodAt xs k = ∏ j ∈ (Finset.range xs.length).erase k, xs.getD j 0 := by
  rw [xprodAt, prod_take_eq xs k (le_of_lt hk), prod_drop_eq xs (k + 1),
    prod_erase_range _ _ hk]

theorem denomAt_eq (xs : List F) (hnd : xs.Nodup) (k : ℕ) (hk : k < xs.length) :
    denomAt xs k =
      ∏ j ∈ (Finset.range xs.length).erase k, (xs.getD j 0 - xs.getD k 0) := by
  rw [denomAt, filter_map_prod, prod_map_eq]
  rw [show ∀ s : Finset ℕ, ∀ f : ℕ → F, (∏ j ∈ s, f j) = ∏ j ∈ s, f j from fun _ _ => rfl]
  have hset : (Finset.range xs.length).erase k =
      (Finset.range xs.length).filter (fun j => xs.getD j 0 ≠ xs.getD k 0) := by
    ext j
    simp only [Finset.mem_erase, Finset.mem_range, Finset.mem_filter]
    constructor
    · rintro ⟨hjk, hj⟩
      exact ⟨hj, fun hc => hjk ((nodup_getD_inj xs hnd hj hk).mp hc)⟩
    · rintro ⟨hj, hne⟩
      exact ⟨fun hc => hne (by rw [hc]), hj⟩
  rw [hset, Finset.prod_filter]
  refine Finset.prod_congr rfl (fun j _ => ?_)
  by_cases hje : xs.getD j 0 ≠ xs.getD k 0
  · rw [if_pos hje, if_pos (by simpa using hje)]
  · rw [if_neg hje, if_neg (by simpa using hje)]

theorem eval_zero_basisDivisor (a b : F) :
    Polynomial.eval 0 (Lagrange.basisDivisor a b) = b * (b - a)⁻¹ := by
  unfold Lagrange.basisDivisor
  simp only [Polynomial.eval_mul, Polynomial.eval_C, Polynomial.eval_sub,
    Polynomial.eval_X, zero_sub]
  rw [← neg_sub b a, inv_neg]
  ring

theorem basis_eval_zero (xs : List F) (hnd : xs.Nodup) (k : ℕ) (hk : k < xs.length) :
    Polynomial.eval 0 (Lagrange.basis (Finset.range xs.length)
        (fun m => xs.getD m 0) k) = lagrangeAt0 xs k := by
  rw [Lagrange.basis, Polynomial.eval_prod, lagrangeAt0, xprodAt_eq xs k hk,
    denomAt_eq xs hnd k hk, ← Finset.prod_inv_distrib, ← Finset.prod_mul_distrib]
  exact Finset.prod_congr rfl (fun j _ => eval_zero_basisDivisor _ _)

theorem lagrange_sum_eval_poly (xs : List F) (hnd : xs.Nodup) (q : Polynomial F)
    (hdeg : q.degree < (Finset.range xs.length).card) :
    ∑ k ∈ Finset.range xs.length, lagrangeAt0 xs k * q.eval (xs.getD k 0)
      = q.eval 0 := by
  classical
  have hinj : Set.InjOn (fun m => xs.getD m 0) (Finset.range xs.length) := by
    intro a ha b hb hab
    simp only [Finset.coe_range, Set.mem_Iio] at ha hb
    exact (nodup_getD_inj xs hnd ha hb).mp hab
  have hint := Lagrange.eq_interpolate hinj hdeg
  have h0 := congrArg (Polynomial.eval 0) hint
  rw [Lagrange.interpolate_apply, Polynomial.eval_finset_sum] at h0
  simp only [Polynomial.eval_mul, Polynomial.eval_C] at h0
  calc
    ∑ k ∈ Finset.range xs.length, lagrangeAt0 xs k * q.eval (xs.getD k 0)
        = ∑ k ∈ Finset.range xs.length,
            q.eval (xs.getD k 0) * Polynomial.eval 0
              (Lagrange.basis (Finset.range xs.length) (fun m => xs.getD m 0) k) := by
          refine Finset.sum_congr rfl (fun k hk => ?_)
          rw [← basis_eval_zero xs hnd k (Finset.mem_range.mp hk), mul_comm]
    _ = q.eval 0 := h0.symm

theorem eval_listPoly (l : List F) (y : F) :
    Polynomial.eval y
        (∑ k ∈ Finset.range l.length, Polynomial.C (l.getD k 0) * Polynomial.X ^ k)
      = listEval y l := by
  rw [Polynomial.eval_finset_sum, listEval_eq_sum]
  refine Finset.sum_congr rfl (fun k _ => ?_)
  simp

theorem degree_listPoly_lt (l : List F) (n : ℕ) (hlen : l.length ≤ n) :
    (∑ k ∈ Finset.range l.length,
        Polynomial.C (l.getD k 0) * Polynomial.X ^ k).degree < (n : WithBot ℕ) := by
  refine lt_of_le_of_lt (Polynomial.degree_sum_le _ _) ?_
  rw [Finset.sup_lt_iff (WithBot.bot_lt_coe _)]
  intro i hi
  refine lt_of_le_of_lt (Polynomial.degree_C_mul_X_pow_le _ _) ?_
  simp only [Finset.mem_range] at hi
  exact_mod_cast (by omega : i < n)

theorem lagrange_sum_eval0 (xs : List F) (hnd : xs.Nodup)
    (l : List F) (hlen : l.length ≤ xs.length) :
    ∑ k ∈ Finset.range xs.length, lagrangeAt0 xs k * listEval (xs.getD k 0) l
      = listEval 0 l := by
  have h := lagrange_sum_eval_poly xs hnd
    (∑ k ∈ Finset.range l.length, Polynomial.C (l.getD k 0) * Polynomial.X ^ k)
    (by rw [Finset.card_range]; exact degree_listPoly_lt l xs.length hlen)
  rw [eval_listPoly] at h
  calc
    ∑ k ∈ Finset.range xs.length, lagrangeAt0 xs k * listEval (xs.getD k 0) l
        = ∑ k ∈ Finset.range xs.length, lagrangeAt0 xs k *
            Polynomial.eval (xs.getD k 0)
              (∑ m ∈ Finset.range l.length,
                Polynomial.C (l.getD m 0) * Polynomial.X ^ m) := by
          refine Finset.sum_congr rfl (fun k _ => ?_)
          rw [eval_listPoly]
    _ = listEval 0 l := h

end LagrangeBridge

section CombineMain

variable {F : Type} [Field F] [DecidableEq F]

theorem foldl_addsmul_log (n : ℕ) (c : ℕ → F) (s : ℕ → GElem F) (init : GElem F) :
    ((List.range n).foldl (fun acc k => acc + smulG (c k) (s k)) init).log
      = init.log + ∑ k ∈ Finset.range n, c k * (s k).log := by
  induction n with
  | zero => simp
  | succ n ih =>
      rw [List.range_succ, List.foldl_append, List.foldl_cons, List.foldl_nil,
        add_log, smulG_log, ih, Finset.sum_range_succ]
      ring

theorem listEval_zero_cons (c : F) (cs : List F) : listEval 0 (c :: cs) = c := by
  simp [listEval]

/-- Control-flow reduction of `combine_signatures_` when exactly `t + 1`
samples are supplied and `t ≥ 1`: the two error branches are skipped and the
accumulation loop runs. -/
theorem combineShares_unfold (t : ℕ) (items : List (F × GElem F))
    (hlen : items.length = t + 1) (ht : t ≠ 0) :
    combineShares t items =
      some ((List.range (t + 1)).foldl
        (fun acc k => acc + smulG
          (lagrangeAt0 (items.map (fun p => intoScalarPlus1 p.1)) k)
          ((items.map (fun p => (intoScalarPlus1 p.1, p.2))).getD k (0, 0)).2) 0) := by
  unfold combineShares
  dsimp only
  rw [List.take_of_length_le (by omega), List.map_map]
  rw [show (Prod.fst ∘ fun p : F × GElem F => (intoScalarPlus1 p.1, p.2))
      = fun p : F × GElem F => intoScalarPlus1 p.1 from rfl]
  simp only [List.length_map, hlen]
  rw [if_neg (by omega), if_neg ht]

/-- Reconstruction: supplying the `t + 1` signature shares
`(i, secret_key_share(i).sign(m))` for pairwise distinct indices to
`combine_signatures_` yields exactly the master signature
`poly.evaluate(0) · H₂(m)`. -/
theorem combine_main (l : List F) (hne : l ≠ []) (idxs : List F)
    (hlen : idxs.length = l.length) (hnd : idxs.Nodup) (h : GElem F) :
    combineShares (l.length - 1)
        (idxs.map (fun i => (i, SecretKey.sign (SecretKeySet.secretKeyShare ⟨l⟩ i) h)))
      = some (SecretKey.sign ((⟨l⟩ : Poly F).evaluate 0) h) := by
  have hn : 0 < l.length := List.length_pos.mpr hne
  simp only [SecretKey.sign, SecretKeySet.secretKeyShare, intoScalarPlus1]
  by_cases h1 : l.length = 1
  · rcases l with _ | ⟨c, cs⟩
    · exact absurd rfl hne
    · have hcs : cs = [] := by
        simp only [List.length_cons] at h1
        exact List.eq_nil_of_length_eq_zero (by omega)
      subst hcs
      rcases idxs with _ | ⟨i0, rest⟩
      · simp at hlen
      · have hrest : rest = [] := by
          simp only [List.length_cons, List.length_nil] at hlen
          exact List.eq_nil_of_length_eq_zero (by omega)
        subst hrest
        have hev : ∀ y : F, (⟨[c]⟩ : Poly F).evaluate y = c := by
          intro y
          rw [Poly.evaluate_eq_listEval]
          simp [listEval]
        simp [combineShares, intoScalarPlus1, hev]
  · have ht : l.length - 1 ≠ 0 := by omega
    have hitems : (idxs.map
        (fun i => (i, smulG ((⟨l⟩ : Poly F).evaluate (1 + i)) h))).length
        = (l.length - 1) + 1 := by
      rw [List.length_map, hlen]
      omega
    rw [combineShares_unfold _ _ hitems ht]
    congr 1
    apply GElem.ext_log
    rw [foldl_addsmul_log, zero_log, zero_add]
    rw [List.map_map, List.map_map]
    rw [show ((fun p : F × GElem F => intoScalarPlus1 p.1) ∘
        fun i : F => (i, smulG ((⟨l⟩ : Poly F).evaluate (1 + i)) h))
        = fun i : F => 1 + i from rfl]
    rw [show ((fun p : F × GElem F => (intoScalarPlus1 p.1, p.2)) ∘
        fun i : F => (i, smulG ((⟨l⟩ : Poly F).evaluate (1 + i)) h))
        = fun i : F => (1 + i, smulG ((⟨l⟩ : Poly F).evaluate (1 + i)) h) from rfl]
    have hxlen : (idxs.map (fun i : F => 1 + i)).length = l.length := by
      rw [List.length_map, hlen]
    have hstep : ∀ k ∈ Finset.range (l.length - 1 + 1),
        lagrangeAt0 (idxs.map (fun i : F => 1 + i)) k *
          ((idxs.map (fun i : F =>
            (1 + i, smulG ((⟨l⟩ : Poly F).evaluate (1 + i)) h))).getD k (0, 0)).2.log
        = (lagrangeAt0 (idxs.map (fun i : F => 1 + i)) k *
            listEval ((idxs.map (fun i : F => 1 + i)).getD k 0) l) * h.log := by
      intro k hk
      have hk2 : k < idxs.length := by
        simp only [Finset.mem_range] at hk
        omega
      rw [List.getD_eq_getElem _ _ (by simpa using hk2), List.getElem_map,
        List.getD_eq_getElem _ _ (by simpa using hk2), List.getElem_map]
      rw [smulG_log, Poly.evaluate_eq_listEval]
      ring
    rw [Finset.sum_congr rfl hstep, ← Finset.sum_mul]
    rw [show l.length - 1 + 1 = (idxs.map (fun i : F => 1 + i)).length from by
      rw [hxlen]; omega]
    rw [lagrange_sum_eval0 _ (hnd.map (add_right_injective 1)) l (by rw [hxlen])]
    rw [smulG_log, Poly.evaluate_eq_listEval]

end CombineMain

section ClaimC1

variable {F : Type} [Field F] [DecidableEq F]

/-- Claim C1: for every `SecretKeySet` (the polynomial `l`, nonempty
coefficient vector) of threshold `t = degree = l.length - 1`, every message
hash `h = H₂(m)` and every list of `t + 1` pairwise distinct share indices,
combining the signature shares `(i, secret_key_share(i).sign(m))` with
`combine_signatures` returns the master signature
`master_secret · H₂(m) = poly.evaluate(0) · H₂(m)`, which verifies under the
master public key `commit.coeff[0]`. -/
theorem combine_signatures_t_plus_1_master (l : List F) (hne : l ≠ [])
    (idxs : List F) (hlen : idxs.length = l.length) (hnd : idxs.Nodup)
    (h : GElem F) :
    combineShares (l.length - 1)
        (idxs.map (fun i => (i, SecretKey.sign (SecretKeySet.secretKeyShare ⟨l⟩ i) h)))
      = some (SecretKey.sign ((⟨l⟩ : Poly F).evaluate 0) h) ∧
      ∃ pk, PublicKeySet.publicKey ((⟨l⟩ : Poly F).commitment) = some pk ∧
        PublicKey.verify pk (SecretKey.sign ((⟨l⟩ : Poly F).evaluate 0) h) h = true := by
  refine ⟨combine_main l hne idxs hlen hnd h, ?_⟩
  rcases l with _ | ⟨c, cs⟩
  · exact absurd rfl hne
  · refine ⟨smulG c gen, rfl, ?_⟩
    simp only [PublicKey.verify, SecretKey.sign, pairing, smulG_log, gen_log,
      decide_eq_true_eq]
    rw [Poly.evaluate_eq_listEval]
    rw [show ((⟨c :: cs⟩ : Poly F).coeff) = c :: cs from rfl, listEval_zero_cons]
    ring

/-- Claim C1, witness: threshold `t = 1` with polynomial `3 + 5x` over
`ZMod 11`, share indices `0` and `1`, message hash `2 · g2`. -/
theorem combine_signatures_t_plus_1_master_witness :
    combineShares (F := ZMod 11) (([3, 5] : List (ZMod 11)).length - 1)
        (([0, 1] : List (ZMod 11)).map (fun i =>
          (i, SecretKey.sign (SecretKeySet.secretKeyShare ⟨[3, 5]⟩ i) ⟨2⟩)))
      = some (SecretKey.sign ((⟨[3, 5]⟩ : Poly (ZMod 11)).evaluate 0) ⟨2⟩) ∧
      ∃ pk, PublicKeySet.publicKey ((⟨[3, 5]⟩ : Poly (ZMod 11)).commitment) = some pk ∧
        PublicKey.verify pk
          (SecretKey.sign ((⟨[3, 5]⟩ : Poly (ZMod 11)).evaluate 0) ⟨2⟩) ⟨2⟩ = true :=
  combine_signatures_t_plus_1_master [3, 5] (by decide) [0, 1] (by decide) (by decide) ⟨2⟩

end ClaimC1

end RustTc
